import Mathlib

/-!
Verification of the card-generation core of `src/backend/card_generator.py`:
the markdown summary parser (`parse_summary`), the bullet-point extractor
(`_gemini_points` / `_fallback_points`), the character-granular text wrapper
(`_wrap_text`), and the section-card content layout (`_make_section_card`,
`generate_cards`).

Python strings are modelled as lists of unicode scalar characters (`Str`),
matching Python's code-point view of `str`.  The font-metrics oracle
(`draw.textlength`) is an arbitrary function `Str → Nat`, and the remote
Gemini call is abstracted by a `RemoteOutcome` value: `failure` stands for
any raised exception (transport, timeout, HTTP, JSON decoding, missing
response fields), `success raw` for a response whose candidate text was
extracted as `raw`.
-/

namespace CardGen

abbrev Str := List Char

/-- Python whitespace as used by `str.strip()` and the regex class `\s`
(restricted to its ASCII part, which is all the surrounding code produces). -/
def isPySpace (c : Char) : Bool :=
  c = ' ' || c = '\t' || c = '\n' || c = '\r' || c = '\x0b' || c = '\x0c'

/-- Python `s.strip()`: remove whitespace from both ends. -/
def pyStrip (s : Str) : Str :=
  ((s.dropWhile isPySpace).reverse.dropWhile isPySpace).reverse

/-- Split on a literal newline character, Python `text.split("\n")`. -/
def splitNl : Str → List Str
  | [] => [[]]
  | c :: rest => if c = '\n' then [] :: splitNl rest
                 else (splitNl rest).modifyHead (c :: ·)

/-- Join lines with newline separators, the left inverse of `splitNl`. -/
def joinNl : List Str → Str
  | [] => []
  | [l] => l
  | l :: l2 :: ls => l ++ '\n' :: joinNl (l2 :: ls)

/-! ### The character-granular wrapper `_wrap_text` (lines 131-150) -/

/-- Greedy accumulation loop of `_wrap_text` (lines 139-149): append one
character at a time to `current`, measuring `current ++ [c]` with the font
oracle before accepting; on overflow flush `current` (when non-empty) and
restart from the offending character; flush the remainder at the end. -/
def wrapLoop (measure : Str → Nat) (maxWidth : Nat) :
    Str → List Str → Str → List Str
  | [], lines, current => if current = [] then lines else lines ++ [current]
  | c :: cs, lines, current =>
    if measure (current ++ [c]) ≤ maxWidth then
      wrapLoop measure maxWidth cs lines (current ++ [c])
    else if current = [] then
      wrapLoop measure maxWidth cs lines [c]
    else
      wrapLoop measure maxWidth cs (lines ++ [current]) [c]

/-- Bullet normalization `re.sub(r"^[-*•·]\s*", "• ", line)` applied to the
stripped raw line in `_wrap_text` (line 136). -/
def normBullet (s : Str) : Str :=
  match s with
  | c :: rest =>
    if c = '-' || c = '*' || c = '•' || c = '·' then
      '•' :: ' ' :: rest.dropWhile isPySpace
    else s
  | [] => s

/-- Embedding of `_wrap_text` (lines 131-150): split the text on hard line
breaks, strip and bullet-normalize each raw line, skip empty paragraphs and
wrap each remaining paragraph character by character. -/
def wrapText (measure : Str → Nat) (maxWidth : Nat) (text : Str) : List Str :=
  (((splitNl text).map (fun raw => normBullet (pyStrip raw))).filter
      (· ≠ [])).flatMap
    (fun para => wrapLoop measure maxWidth para [] [])

/-! ### Section-card content layout (`_make_section_card`, lines 189-244) -/

/-- Canvas height `H` (line 87). -/
def canvasH : Nat := 1920

/-- Content font size `FS_CONTENT` (line 105). -/
def FS_CONTENT : Nat := 40

/-- Content line height `line_h = FS_CONTENT + 20` (line 221). -/
def lineH : Nat := FS_CONTENT + 20

/-- Vertical start of the content region, `y = 230` (line 222). -/
def contentTop : Nat := 230

/-- Pixels reserved at the bottom: the footer separator sits at `H - 130`
(line 236). -/
def footerReserved : Nat := 130

/-- The line budget named by the claim:
`floor((canvas_height − top_offset − bottom_reserved) / line_height)`,
which evaluates to 26 for the constants of the source. -/
def claimedLineBudget : Nat := (canvasH - contentTop - footerReserved) / lineH

/-- Content lines drawn by `_make_section_card` (lines 223-233): for each
point the wrapped lines are drawn in order (the raw point itself when
wrapping returns nothing); no line budget is ever applied by the code. -/
def sectionContentLines (measure : Str → Nat) (maxWidth : Nat)
    (points : List Str) : List Str :=
  points.flatMap (fun pt =>
    let wrapped := wrapText measure maxWidth pt
    if wrapped = [] then [pt] else wrapped)

/-! ### Wrapper invariants (claims C2, C9, C1) -/

/-- Loop invariant for `wrapLoop`: every emitted line was accepted by the
width oracle, except lines that are a single character. -/
theorem wrapLoop_width (measure : Str → Nat) (maxWidth : Nat) :
    ∀ (cs : Str) (lines : List Str) (current : Str),
      (∀ l ∈ lines, measure l ≤ maxWidth ∨ l.length = 1) →
      (current = [] ∨ measure current ≤ maxWidth ∨ current.length = 1) →
      ∀ l ∈ wrapLoop measure maxWidth cs lines current,
        measure l ≤ maxWidth ∨ l.length = 1 := by
  intro cs
  induction cs with
  | nil =>
    intro lines current h1 h2 l hl
    rw [wrapLoop] at hl
    split at hl
    · exact h1 l hl
    · rcases List.mem_append.mp hl with h | h
      · exact h1 l h
      · rcases List.mem_singleton.mp h with rfl
        rcases h2 with h2 | h2
        · simp_all
        · exact h2
  | cons c cs ih =>
    intro lines current h1 h2 l hl
    rw [wrapLoop] at hl
    split at hl
    · exact ih lines (current ++ [c]) h1 (Or.inr (Or.inl ‹_›)) l hl
    · split at hl
      · exact ih lines [c] h1 (Or.inr (Or.inr rfl)) l hl
      · refine ih (lines ++ [current]) [c] ?_ (Or.inr (Or.inr rfl)) l hl
        intro l' hl'
        rcases List.mem_append.mp hl' with h | h
        · exact h1 l' h
        · rcases List.mem_singleton.mp h with rfl
          rcases h2 with h2 | h2
          · simp_all
          · exact h2

/-- C2: for every input text, every pixel-width budget and every font-metrics
oracle, each line produced by `_wrap_text` measures within the budget, except
possibly a line consisting of a single character whose intrinsic width
already exceeds the budget. -/
theorem wrapped_line_width_le (measure : Str → Nat) (maxWidth : Nat)
    (text : Str) :
    ∀ l ∈ wrapText measure maxWidth text,
      measure l ≤ maxWidth ∨ (l.length = 1 ∧ maxWidth < measure l) := by
  intro l hl
  simp only [wrapText, List.mem_flatMap] at hl
  obtain ⟨para, -, hm⟩ := hl
  have h := wrapLoop_width measure maxWidth para [] [] (by simp)
    (Or.inl rfl) l hm
  rcases h with h | h
  · exact Or.inl h
  · rcases le_or_lt (measure l) maxWidth with h' | h'
    · exact Or.inl h'
    · exact Or.inr ⟨h, h'⟩

/-- Witness for C2 at a concrete input: with the oracle measuring a line by
its character count and budget 2, wrapping `"abc"` emits the line `"ab"`. -/
theorem wrapped_line_width_le_witness :
    List.length ['a', 'b'] ≤ 2 ∨
      ((['a', 'b'] : Str).length = 1 ∧ 2 < List.length ['a', 'b']) :=
  wrapped_line_width_le List.length 2 "abc".toList ['a', 'b'] (by decide)

/-- Concatenation invariant for `wrapLoop`: the flattened output extends the
flattened accumulator by exactly the remaining characters. -/
theorem wrapLoop_flatten (measure : Str → Nat) (maxWidth : Nat) :
    ∀ (cs : Str) (lines : List Str) (current : Str),
      (wrapLoop measure maxWidth cs lines current).flatten =
        lines.flatten ++ current ++ cs := by
  intro cs
  induction cs with
  | nil =>
    intro lines current
    rw [wrapLoop]
    split
    · simp_all
    · simp
  | cons c cs ih =>
    intro lines current
    rw [wrapLoop]
    split
    · rw [ih]; simp
    · split
      · rw [ih]; simp_all
      · rw [ih]; simp

/-- C9: wrapping a single normalized paragraph loses and duplicates no
character — the lines concatenate back to the paragraph, for every behavior
of the width oracle. -/
theorem wrap_para_preserves_chars (measure : Str → Nat) (maxWidth : Nat)
    (para : Str) :
    (wrapLoop measure maxWidth para [] []).flatten = para := by
  simpa using wrapLoop_flatten measure maxWidth para [] []

/-- C1 amended: the number of drawn content lines on a section card. -/
theorem section_lines_count (measure : Str → Nat) (maxWidth : Nat)
    (points : List Str) :
    (sectionContentLines measure maxWidth points).length =
      (points.map
        (fun pt => max (wrapText measure maxWidth pt).length 1)).sum := by
  induction points with
  | nil => rfl
  | cons pt rest ih =>
    simp only [sectionContentLines, List.flatMap_cons, List.length_append,
      List.map_cons, List.sum_cons] at *
    rw [ih]
    congr 1
    split
    · simp_all
    · rename_i hw
      have : 1 ≤ (wrapText measure maxWidth pt).length :=
        List.length_pos.mpr hw
      omega

/-- Five points of 26 characters each, as the local fallback could produce. -/
def cexPoints : List Str := List.replicate 5 (List.replicate 26 'a')

set_option maxRecDepth 4000 in
/-- C1 counterexample: with the width oracle measuring character count and a
budget of 1 pixel, the five 26-character points wrap to 130 drawn lines —
far above the claimed budget of 26 — and no line is the ellipsis sentinel. -/
theorem section_lines_exceed_budget :
    claimedLineBudget <
        (sectionContentLines List.length 1 cexPoints).length ∧
      (['…'] : Str) ∉ sectionContentLines List.length 1 cexPoints := by
  decide

/-! ### The bullet extractor `_gemini_points` / `_fallback_points` (lines 31-84) -/

/-- Outcome of the remote Gemini call inside the `try` block of
`_gemini_points`: `failure` stands for any raised exception (transport,
timeout, HTTP status, JSON decoding, missing `candidates` fields), `success
raw` for the extracted candidate text. -/
inductive RemoteOutcome where
  | failure (msg : Str)
  | success (raw : Str)

/-- Numbering cleanup `re.sub(r"^[\d]+[.、。\)）]\s*", "", l)` (line 66). -/
def stripNumMark (s : Str) : Str :=
  let ds := s.takeWhile (·.isDigit)
  let rest := s.dropWhile (·.isDigit)
  if ds = [] then s
  else
    match rest with
    | c :: r =>
      if c = '.' || c = '、' || c = '。' || c = ')' || c = '）' then
        r.dropWhile isPySpace
      else s
    | [] => s

/-- Bullet-glyph cleanup `re.sub(r"^[-•·]\s*", "", l)` (line 67). -/
def stripBulletMark (s : Str) : Str :=
  match s with
  | c :: rest =>
    if c = '-' || c = '•' || c = '·' then rest.dropWhile isPySpace else s
  | [] => s

/-- Per-line cleanup inside `_gemini_points` (lines 65-67): strip, remove a
numbering mark, remove a bullet glyph, strip again. -/
def geminiCleanLine (l : Str) : Str :=
  pyStrip (stripBulletMark (stripNumMark (pyStrip l)))

/-- Non-empty cleaned lines of the raw Gemini response text (lines 63-69). -/
def geminiLines (raw : Str) : List Str :=
  ((splitNl (pyStrip raw)).map geminiCleanLine).filter (· ≠ [])

/-- Per-line cleanup of `_fallback_points` (lines 80-81): delete every
asterisk, strip, remove a leading bullet glyph, strip again. -/
def fallbackCleanLine (raw : Str) : Str :=
  pyStrip (stripBulletMark (pyStrip (raw.filter (· ≠ '*'))))

/-- Embedding of `_fallback_points` (lines 76-84): clean each line of the
content, keep the non-empty results truncated to 25 characters plus an
ellipsis, and return the first five. -/
def fallbackPoints (content : Str) : List Str :=
  ((((splitNl content).map fallbackCleanLine).filter (· ≠ [])).map
    (fun c => if 25 < c.length then c.take 25 ++ ['…'] else c)).take 5

/-- Embedding of `_gemini_points` (lines 31-73) with the remote call
abstracted by `outcome`: without a configured API key, or on any remote
failure, or when the response cleans to no lines, the local fallback is
used; otherwise the first five cleaned lines are returned.  The function is
total: no exception escapes the extractor. -/
def geminiPoints (apiKey : Str) (outcome : RemoteOutcome)
    (content : Str) : List Str :=
  if apiKey = [] then fallbackPoints content
  else
    match outcome with
    | .failure _ => fallbackPoints content
    | .success raw =>
      let lines := geminiLines raw
      if lines = [] then fallbackPoints content else lines.take 5

/-! ### Extractor bounds and degradation (claims C4, C5) -/

/-- The local fallback never returns more than five points. -/
theorem fallbackPoints_length_le (content : Str) :
    (fallbackPoints content).length ≤ 5 := by
  simp only [fallbackPoints] ; exact List.length_take_le 5 _

/-- C4: the bullet extractor returns at most five points under every
configuration — remote success, remote failure, and the local fallback
alone. -/
theorem points_length_le_five (apiKey : Str) (outcome : RemoteOutcome)
    (content : Str) :
    (geminiPoints apiKey outcome content).length ≤ 5 ∧
      (fallbackPoints content).length ≤ 5 := by
  refine ⟨?_, fallbackPoints_length_le content⟩
  unfold geminiPoints
  split
  · exact fallbackPoints_length_le content
  · match outcome with
    | .failure _ => exact fallbackPoints_length_le content
    | .success raw =>
      simp only
      split
      · exact fallbackPoints_length_le content
      · exact List.length_take_le 5 _

/-- C5: any remote failure, and any remote response whose cleanup yields no
lines, makes the extractor return exactly the local fallback applied to the
same content; totality of `geminiPoints` gives that no exception crosses the
extractor boundary. -/
theorem remote_failure_falls_back (apiKey msg content : Str) :
    geminiPoints apiKey (.failure msg) content = fallbackPoints content ∧
      ∀ raw, geminiLines raw = [] →
        geminiPoints apiKey (.success raw) content =
          fallbackPoints content := by
  constructor
  · unfold geminiPoints
    split
    · rfl
    · rfl
  · intro raw h
    unfold geminiPoints
    split
    · rfl
    · simp [h]

/-- Witness for C5 at a concrete input: a whitespace-and-bullet response
cleans to nothing, so the extractor returns the fallback points. -/
theorem remote_failure_falls_back_witness :
    geminiPoints ['k'] (.success "  \n- \n".toList) ['x'] =
      fallbackPoints ['x'] :=
  (remote_failure_falls_back ['k'] [] ['x']).2 "  \n- \n".toList (by decide)

/-! ### The markdown parser `parse_summary` (lines 247-269) -/

/-- Scan of `re.sub(r"^---.*?---\s*\n", "", text, flags=re.DOTALL)` for the
closing frontmatter delimiter: the first position where `---` is followed by
a whitespace run containing a newline.  The match consumes through the last
newline of that run, so the remainder is the part of the run after its last
newline plus everything after the run. -/
def fmScan : Str → Option Str
  | [] => none
  | c :: rest =>
    if (c :: rest).take 3 = "---".toList then
      if '\n' ∈ ((c :: rest).drop 3).takeWhile isPySpace then
        some ((((((c :: rest).drop 3).takeWhile isPySpace).reverse.takeWhile
            (· ≠ '\n')).reverse) ++ ((c :: rest).drop 3).dropWhile isPySpace)
      else fmScan rest
    else fmScan rest

/-- Frontmatter removal (line 252): without `re.MULTILINE` the anchor `^`
matches only at the start of the string, so at most one leading block is
removed, and only when the text begins with `---`. -/
def stripFrontmatter (s : Str) : Str :=
  if s.take 3 = "---".toList then
    match fmScan (s.drop 3) with
    | some rest => rest
    | none => s
  else s

/-- Test for a line matched by `re.search(r"^# (.+)$", text, re.MULTILINE)`
(line 255): the line begins with a hash and a space and has at least one
further character. -/
def isTitleLine (l : Str) : Bool :=
  l.take 2 == ['#', ' '] && decide (2 < l.length)

/-- Title extraction (lines 255-256): the stripped remainder of the first
matching line. -/
def findTitle (s : Str) : Option Str :=
  ((splitNl s).find? isTitleLine).map (fun l => pyStrip (l.drop 2))

/-- Match attempt for the tail `([^\]]+)\]\([^)]+\)` of the link pattern of
line 259, starting right after an opening bracket: a non-empty run of
non-bracket characters, a closing bracket, an opening parenthesis, a
non-empty run up to a closing parenthesis.  Returns the label and the rest
of the input after the match. -/
def tryLink (cs : Str) : Option (Str × Str) :=
  let label := cs.takeWhile (· ≠ ']')
  if label = [] then none
  else
    match cs.dropWhile (· ≠ ']') with
    | ']' :: '(' :: cs2 =>
      let url := cs2.takeWhile (· ≠ ')')
      if url = [] then none
      else
        match cs2.dropWhile (· ≠ ')') with
        | ')' :: cs3 => some (label, cs3)
        | _ => none
    | _ => none

/-- Fuelled scan of `re.sub(r"\[([^\]]+)\]\([^)]+\)", r"\1", text)`
(line 259): replace each match by its label and resume after the match,
advancing one character when no match starts at the current position.  One
unit of fuel is spent per consumed character, so fuel equal to the input
length (as supplied by `removeLinks`) never runs out. -/
def removeLinksAux : Nat → Str → Str
  | 0, cs => cs
  | _, [] => []
  | fuel + 1, c :: rest =>
    if c = '[' then
      match tryLink rest with
      | some (label, r) => label ++ removeLinksAux fuel r
      | none => c :: removeLinksAux fuel rest
    else c :: removeLinksAux fuel rest

/-- Markdown link removal, `[text](url) → text` (line 259). -/
def removeLinks (cs : Str) : Str := removeLinksAux cs.length cs

/-- Test for a line opening a section match of
`re.finditer(r"^## ([^\n]+)\n(.*?)(?=^## |\Z)", ...)` (line 263): two hashes,
a space, and at least one further character on the line. -/
def isSecHeaderLine (l : Str) : Bool :=
  l.take 3 == "## ".toList && decide (3 < l.length)

/-- Test for a line at which the non-greedy content group stops: the
lookahead `(?=^## |\Z)` only needs the three characters `## `. -/
def isSecStopLine (l : Str) : Bool :=
  l.take 3 == "## ".toList

/-- Fuelled scan for the section matches of lines 262-267 over the line list
of the text: a section starts at a header line that is followed by a newline
(i.e. is not the last line), its content runs to the next line starting with
`## ` or to the end, and a section whose stripped content is empty is
dropped.  Fuel decreases by at least one line per step, so fuel equal to the
number of lines (as supplied by `findSections`) never runs out. -/
def findSectionsAux : Nat → List Str → List (Str × Str)
  | 0, _ => []
  | _, [] => []
  | fuel + 1, l :: rest =>
    if isSecHeaderLine l && !rest.isEmpty then
      if pyStrip (joinNl (rest.takeWhile (fun x => !isSecStopLine x))) = [] then
        findSectionsAux fuel (rest.dropWhile (fun x => !isSecStopLine x))
      else
        (pyStrip (l.drop 3),
            pyStrip (joinNl (rest.takeWhile (fun x => !isSecStopLine x)))) ::
          findSectionsAux fuel (rest.dropWhile (fun x => !isSecStopLine x))
    else findSectionsAux fuel rest

/-- Section occurrences of a text in source order, one per second-level
heading whose stripped content is non-empty. -/
def findSections (ls : List Str) : List (Str × Str) :=
  findSectionsAux ls.length ls

/-- Python dict assignment `sections[key] = val`: overwrite in place when the
key is present (its position is kept), append otherwise. -/
def dictInsert (d : List (Str × Str)) (k v : Str) : List (Str × Str) :=
  if d.any (fun p => p.1 == k) then
    d.map (fun p => if p.1 == k then (k, v) else p)
  else d ++ [(k, v)]

/-- Python `k in sections` on the section dict. -/
def hasKey (d : List (Str × Str)) (k : Str) : Bool :=
  d.any (fun p => p.1 == k)

/-- Python `sections[k]` (as an option) on the section dict. -/
def lookupDict (d : List (Str × Str)) (k : Str) : Option Str :=
  (d.find? (fun p => p.1 == k)).map (·.2)

/-- Result type of `parse_summary`: the returned
`{"title": ..., "sections": ...}` dict, with the section dict as an ordered
association list with unique keys. -/
structure Summary where
  title : Str
  sections : List (Str × Str)
deriving DecidableEq

/-- Embedding of `parse_summary` (lines 247-269): strip frontmatter, extract
the title (defaulting to 投資摘要), rewrite markdown links, then collect the
sections into a dict in match order with later duplicates overwriting
earlier ones. -/
def parseSummary (text : Str) : Summary :=
  let t1 := stripFrontmatter text
  let title := (findTitle t1).getD "投資摘要".toList
  let secs := (findSections (splitNl (removeLinks t1))).foldl
    (fun d kv => dictInsert d kv.1 kv.2) []
  ⟨title, secs⟩

/-- Section occurrences of a document before dict collapsing: the matches of
the section regex, in source order, keyed by stripped heading with stripped
non-empty content. -/
def sectionOccurrences (text : Str) : List (Str × Str) :=
  findSections (splitNl (removeLinks (stripFrontmatter text)))

/-! ### The section-card footer caption (claim C7, lines 239-241) -/

/-- The footer caption of `_make_section_card` (line 240):
`video_title if len(video_title) <= 32 else video_title[:31] + "…"`. -/
def footerText (t : Str) : Str :=
  if t.length ≤ 32 then t else t.take 31 ++ ['…']

/-- C7: a footer caption longer than the 32-character budget is cut to its
first 31 characters plus one trailing ellipsis; a caption within the budget
is unmodified. -/
theorem footer_truncation (t : Str) :
    (32 < t.length → footerText t = t.take 31 ++ ['…']) ∧
      (t.length ≤ 32 → footerText t = t) := by
  constructor
  · intro h
    simp [footerText, Nat.not_le.mpr h]
  · intro h
    simp [footerText, h]

/-- Witness for C7 at a concrete caption of 33 characters. -/
theorem footer_truncation_witness :
    footerText (List.replicate 33 'a') =
      (List.replicate 33 'a').take 31 ++ ['…'] :=
  (footer_truncation (List.replicate 33 'a')).1 (by decide)

/-! ### Structure lemmas for lines and frontmatter -/

/-- A character at the head of a `dropWhile` result falsifies the predicate. -/
theorem dropWhile_head_false {p : Char → Bool} :
    ∀ {l xs : Str} {x : Char}, List.dropWhile p l = x :: xs → p x = false := by
  intro l
  induction l with
  | nil => intro xs x h; simp [List.dropWhile_nil] at h
  | cons c cs ih =>
    intro xs x h
    rw [List.dropWhile_cons] at h
    split at h
    · exact ih h
    · cases h
      rename_i hpc
      simpa using hpc

/-- Line splitting always yields at least one line. -/
theorem splitNl_ne_nil (cs : Str) : splitNl cs ≠ [] := by
  induction cs with
  | nil => simp [splitNl]
  | cons c rest ih =>
    rw [splitNl]
    split
    · simp
    · cases h : splitNl rest with
      | nil => exact absurd h ih
      | cons a as => simp [h]

/-- Splitting a string at an explicit newline splits around it. -/
theorem splitNl_append (a b : Str) :
    splitNl (a ++ '\n' :: b) = splitNl a ++ splitNl b := by
  induction a with
  | nil => simp [splitNl]
  | cons c a ih =>
    by_cases hc : c = '\n'
    · subst hc
      simp [splitNl, ih]
    · simp only [List.cons_append, splitNl, if_neg hc, ih]
      cases h : splitNl a with
      | nil => exact absurd h (splitNl_ne_nil a)
      | cons a0 as => simp [ih, h]

/-- When the whitespace run at the head of `A` contains a newline, `A` cuts
at the last newline of that run into a prefix, the newline, and the
remainder that `fmScan` returns. -/
theorem fm_cut (A : Str) (hnl : '\n' ∈ A.takeWhile isPySpace) :
    ∃ w : Str, A = w ++ '\n' ::
      (((A.takeWhile isPySpace).reverse.takeWhile (· ≠ '\n')).reverse ++
        A.dropWhile isPySpace) := by
  have hdw : (A.takeWhile isPySpace).reverse.dropWhile (· ≠ '\n') ≠ [] := by
    intro hempty
    have hrv : '\n' ∈ (A.takeWhile isPySpace).reverse :=
      List.mem_reverse.mpr hnl
    have htk := List.takeWhile_append_dropWhile (fun x => x ≠ '\n')
      (A.takeWhile isPySpace).reverse
    rw [hempty, List.append_nil] at htk
    rw [← htk] at hrv
    have := List.mem_takeWhile_imp hrv
    simp at this
  cases hcase : (A.takeWhile isPySpace).reverse.dropWhile (· ≠ '\n') with
  | nil => exact absurd hcase hdw
  | cons d w =>
    have hd : d = '\n' := by
      have := dropWhile_head_false hcase
      simpa using this
    subst hd
    refine ⟨w.reverse, ?_⟩
    have hrv := List.takeWhile_append_dropWhile (fun x => x ≠ '\n')
      (A.takeWhile isPySpace).reverse
    rw [hcase] at hrv
    have hR : A.takeWhile isPySpace =
        w.reverse ++ '\n' ::
          ((A.takeWhile isPySpace).reverse.takeWhile (· ≠ '\n')).reverse := by
      simpa [List.reverse_append] using
        (congrArg (fun l : Str => l.reverse) hrv).symm
    calc A = A.takeWhile isPySpace ++ A.dropWhile isPySpace :=
        (List.takeWhile_append_dropWhile isPySpace A).symm
    _ = (w.reverse ++ '\n' ::
          ((A.takeWhile isPySpace).reverse.takeWhile (· ≠ '\n')).reverse) ++
          A.dropWhile isPySpace := by rw [← hR]
    _ = w.reverse ++ '\n' ::
          (((A.takeWhile isPySpace).reverse.takeWhile (· ≠ '\n')).reverse ++
            A.dropWhile isPySpace) := by simp

/-- A successful frontmatter scan cuts the input at a newline: the input is a
prefix, that newline, and exactly the returned remainder. -/
theorem fmScan_split :
    ∀ {cs r : Str}, fmScan cs = some r → ∃ a, cs = a ++ '\n' :: r := by
  intro cs
  induction cs with
  | nil => intro r h; simp [fmScan] at h
  | cons c rest ih =>
    intro r h
    rw [fmScan] at h
    split at h
    · split at h
      · rename_i h3 hnl
        injection h with h
        obtain ⟨w, hw⟩ := fm_cut ((c :: rest).drop 3) hnl
        refine ⟨(c :: rest).take 3 ++ w, ?_⟩
        conv_lhs => rw [← List.take_append_drop 3 (c :: rest)]
        rw [hw, ← h]
        simp
      · obtain ⟨a, ha⟩ := ih h
        exact ⟨c :: a, by rw [List.cons_append, ha]⟩
    · obtain ⟨a, ha⟩ := ih h
      exact ⟨c :: a, by rw [List.cons_append, ha]⟩

/-- Every line of the frontmatter-stripped text is a line of the original
text: the removed block ends exactly at a line boundary. -/
theorem stripFrontmatter_line_mem (text : Str) :
    ∀ l ∈ splitNl (stripFrontmatter text), l ∈ splitNl text := by
  intro l hl
  unfold stripFrontmatter at hl
  split at hl
  · cases hscan : fmScan (text.drop 3) with
    | none => rw [hscan] at hl; exact hl
    | some r =>
      rw [hscan] at hl
      obtain ⟨a, ha⟩ := fmScan_split hscan
      have htext : text = (text.take 3 ++ a) ++ '\n' :: r := by
        conv_lhs => rw [← List.take_append_drop 3 text]
        rw [ha]
        simp
      rw [htext, splitNl_append]
      exact List.mem_append_right _ hl
  · exact hl

/-! ### Parser totality and the default title (claim C6) -/

/-- C6: the parser is a total function of the input text — malformed input
(no frontmatter, no headings, no sections) cannot make it fail — and when no
line of the text is a top-level heading the returned title is the fixed
default 投資摘要. -/
theorem no_heading_default_title (text : Str)
    (h : ∀ l ∈ splitNl text, isTitleLine l = false) :
    (parseSummary text).title = "投資摘要".toList := by
  have hfind : (splitNl (stripFrontmatter text)).find? isTitleLine = none :=
    List.find?_eq_none.mpr (fun l hl => by
      rw [h l (stripFrontmatter_line_mem text l hl)]
      simp)
  simp [parseSummary, findTitle, hfind]

/-- Witness for C6 at a concrete heading-free document. -/
theorem no_heading_default_title_witness :
    (parseSummary "hello\nworld".toList).title = "投資摘要".toList :=
  no_heading_default_title "hello\nworld".toList (by decide)

/-! ### Card generation order (`generate_cards`, lines 272-300, claim C3) -/

/-- The fixed section-priority enumeration `SECTION_ORDER` (line 98). -/
def SECTION_ORDER : List Str :=
  ["核心觀點", "提及標的", "關鍵數據", "投資機會", "風險提示",
    "個人行動建議"].map String.toList

/-- A generated card: the title card or one section card carrying its label,
its extracted points, its 1-based index and the total section count. -/
inductive Card where
  | titleCard (text : Str)
  | sectionCard (label : Str) (points : List Str) (index : Nat) (total : Nat)

/-- The ordered present-section list of `generate_cards` (line 292):
`[(k, sections[k]) for k in SECTION_ORDER if k in sections]`. -/
def orderedSections (sections : List (Str × Str)) : List (Str × Str) :=
  SECTION_ORDER.filterMap
    (fun k => (lookupDict sections k).map (fun v => (k, v)))

/-- The section-card loop of `generate_cards` (lines 293-298):
`enumerate(ordered, start=1)` with `total = len(ordered)`. -/
def numberCards (pointsOf : Str → Str → List Str) (total : Nat) :
    Nat → List (Str × Str) → List Card
  | _, [] => []
  | i, kv :: rest =>
    Card.sectionCard kv.1 (pointsOf kv.1 kv.2) i total ::
      numberCards pointsOf total (i + 1) rest

/-- Embedding of `generate_cards` (lines 272-300), abstracted over the bullet
extractor: the title card first, then one card per present section in
priority order. -/
def generateCards (pointsOf : Str → Str → List Str) (title : Str)
    (sections : List (Str × Str)) : List Card :=
  Card.titleCard title ::
    numberCards pointsOf (orderedSections sections).length 1
      (orderedSections sections)

/-- The labels of the section cards of a card list, in order. -/
def sectionLabels (cards : List Card) : List Str :=
  cards.filterMap (fun c =>
    match c with
    | .sectionCard label _ _ _ => some label
    | .titleCard _ => none)

/-- The key is found exactly when the dict has it. -/
theorem lookupDict_isSome (d : List (Str × Str)) (k : Str) :
    (lookupDict d k).isSome = hasKey d k := by
  simp only [lookupDict, hasKey, Option.isSome_map]
  induction d with
  | nil => simp
  | cons p rest ih =>
    rw [List.find?_cons, List.any_cons]
    split
    · simp_all
    · simp_all

/-- The labels of the numbered section cards are the keys, in order. -/
theorem numberCards_labels (pointsOf : Str → Str → List Str) (total : Nat) :
    ∀ (i : Nat) (l : List (Str × Str)),
      sectionLabels (numberCards pointsOf total i l) = l.map Prod.fst := by
  intro i l
  induction l generalizing i with
  | nil => rfl
  | cons kv rest ih =>
    simp [numberCards, sectionLabels] at *
    exact ih _

/-- The section-card labels of a run of `generate_cards` are exactly the
priority enumeration filtered by presence in the parsed section dict. -/
theorem generateCards_labels (pointsOf : Str → Str → List Str) (title : Str)
    (sections : List (Str × Str)) :
    sectionLabels (generateCards pointsOf title sections) =
      SECTION_ORDER.filter (fun k => hasKey sections k) := by
  have h1 : sectionLabels (generateCards pointsOf title sections) =
      (orderedSections sections).map Prod.fst := by
    simp [generateCards, sectionLabels]
    exact numberCards_labels pointsOf _ 1 (orderedSections sections)
  rw [h1]
  unfold orderedSections
  induction SECTION_ORDER with
  | nil => rfl
  | cons k order ih =>
    rw [List.filterMap_cons, List.filter_cons]
    cases hk : lookupDict sections k with
    | none =>
      have : hasKey sections k = false := by
        rw [← lookupDict_isSome, hk]
        rfl
      simp [this, ih]
    | some v =>
      have : hasKey sections k = true := by
        rw [← lookupDict_isSome, hk]
        rfl
      simp [this, ih]

/-- C3: the section cards of `generate_cards` appear in the order of the
fixed priority enumeration regardless of source order — their label sequence
is a subsequence of the enumeration, a name yields a card exactly when it is
in the enumeration and present in the parsed sections, and two section dicts
agreeing on which enumerated names are present yield the same label
sequence. -/
theorem cards_follow_section_order (pointsOf : Str → Str → List Str)
    (title : Str) (sections : List (Str × Str)) :
    (sectionLabels (generateCards pointsOf title sections)).Sublist
        SECTION_ORDER ∧
      (∀ k, k ∈ sectionLabels (generateCards pointsOf title sections) ↔
        k ∈ SECTION_ORDER ∧ hasKey sections k = true) ∧
      ∀ sections2,
        (∀ k ∈ SECTION_ORDER, hasKey sections k = hasKey sections2 k) →
        sectionLabels (generateCards pointsOf title sections) =
          sectionLabels (generateCards pointsOf title sections2) := by
  refine ⟨?_, ?_, ?_⟩
  · rw [generateCards_labels]
    exact List.filter_sublist SECTION_ORDER
  · intro k
    rw [generateCards_labels]
    simp [List.mem_filter]
  · intro sections2 hagree
    rw [generateCards_labels, generateCards_labels]
    exact List.filter_congr hagree

/-- Witness for C3 at two concrete dicts holding the same two sections in
opposite source order. -/
theorem cards_follow_section_order_witness :
    sectionLabels (generateCards (fun _ c => [c]) "t".toList
        [("風險提示".toList, "風險A".toList),
          ("核心觀點".toList, "重點".toList)]) =
      sectionLabels (generateCards (fun _ c => [c]) "t".toList
        [("核心觀點".toList, "重點".toList),
          ("風險提示".toList, "風險A".toList)]) :=
  (cards_follow_section_order (fun _ c => [c]) "t".toList
      [("風險提示".toList, "風險A".toList),
        ("核心觀點".toList, "重點".toList)]).2.2
    [("核心觀點".toList, "重點".toList),
      ("風險提示".toList, "風險A".toList)]
    (by decide)

/-! ### Duplicate headings (claim C10) -/

/-- Overwriting every entry of key `k` leaves lookups of `k` at the new
value, provided some entry has key `k`. -/
theorem lookupDict_map_overwrite (k v : Str) :
    ∀ d : List (Str × Str), d.any (fun p => p.1 == k) = true →
      lookupDict (d.map (fun p => if p.1 == k then (k, v) else p)) k =
        some v := by
  intro d
  induction d with
  | nil => simp
  | cons p rest ih =>
    intro hany
    rw [List.any_cons] at hany
    simp only [List.map_cons]
    by_cases hp : p.1 == k
    · simp [lookupDict, hp, List.find?_cons_of_pos]
    · have hrest : rest.any (fun p => p.1 == k) = true := by
        simpa [hp] using hany
      rw [if_neg hp]
      have step : lookupDict
          (p :: rest.map (fun p => if p.1 == k then (k, v) else p)) k =
          lookupDict (rest.map (fun p => if p.1 == k then (k, v) else p)) k := by
        simp [lookupDict, List.find?_cons_of_neg, hp]
      rw [step]
      exact ih hrest

/-- Overwriting entries of a different key leaves lookups unchanged. -/
theorem lookupDict_map_ne (k1 v1 k : Str) (hne : k1 ≠ k) :
    ∀ d : List (Str × Str),
      lookupDict (d.map (fun p => if p.1 == k1 then (k1, v1) else p)) k =
        lookupDict d k := by
  intro d
  induction d with
  | nil => rfl
  | cons p rest ih =>
    simp only [List.map_cons]
    by_cases hp : p.1 == k1
    · have hpk : (p.1 == k) = false := by
        have : p.1 = k1 := by simpa using hp
        simp [this, hne]
      have hk1k : (k1 == k) = false := by simp [hne]
      simp [lookupDict, List.find?_cons_of_neg, hp, hpk, hk1k] at *
      exact ih
    · rw [if_neg hp]
      by_cases hpk : p.1 == k
      · simp [lookupDict, List.find?_cons_of_pos, hpk]
      · simp [lookupDict, List.find?_cons_of_neg, hpk] at *
        exact ih

/-- Appending an entry of a different key leaves lookups unchanged. -/
theorem lookupDict_concat_ne (k1 v1 k : Str) (hne : k1 ≠ k) :
    ∀ d : List (Str × Str),
      lookupDict (d ++ [(k1, v1)]) k = lookupDict d k := by
  intro d
  induction d with
  | nil => simp [lookupDict, hne]
  | cons p rest ih =>
    by_cases hpk : p.1 == k
    · simp [lookupDict, List.find?_cons_of_pos, hpk]
    · simp [lookupDict, List.find?_cons_of_neg, hpk] at *
      exact ih

/-- Appending an entry of key `k` to a dict without `k` makes lookups of `k`
return the new value. -/
theorem lookupDict_concat_self (k v : Str) :
    ∀ d : List (Str × Str), d.any (fun p => p.1 == k) = false →
      lookupDict (d ++ [(k, v)]) k = some v := by
  intro d
  induction d with
  | nil => intro _; simp [lookupDict]
  | cons p rest ih =>
    intro hany
    rw [List.any_cons] at hany
    have hp : (p.1 == k) = false := by
      cases h : p.1 == k
      · rfl
      · rw [h] at hany; simp at hany
    have hrest : rest.any (fun p => p.1 == k) = false := by
      cases h : rest.any (fun p => p.1 == k)
      · rfl
      · rw [h] at hany; simp at hany
    have step : lookupDict ((p :: rest) ++ [(k, v)]) k =
        lookupDict (rest ++ [(k, v)]) k := by
      simp [lookupDict, List.find?_cons_of_neg, hp]
    rw [step]
    exact ih hrest

/-- Inserting under key `k` makes lookups of `k` return the new value. -/
theorem lookupDict_dictInsert_self (d : List (Str × Str)) (k v : Str) :
    lookupDict (dictInsert d k v) k = some v := by
  unfold dictInsert
  split
  · exact lookupDict_map_overwrite k v d ‹_›
  · rename_i hany
    refine lookupDict_concat_self k v d ?_
    cases h : d.any (fun p => p.1 == k) with
    | false => rfl
    | true => exact absurd h hany

/-- Inserting under a different key leaves lookups unchanged. -/
theorem lookupDict_dictInsert_ne (d : List (Str × Str)) (k1 v1 k : Str)
    (hne : k1 ≠ k) :
    lookupDict (dictInsert d k1 v1) k = lookupDict d k := by
  unfold dictInsert
  split
  · exact lookupDict_map_ne k1 v1 k hne d
  · exact lookupDict_concat_ne k1 v1 k hne d

/-- Folding occurrences into the dict realizes last-non-empty-wins. -/
theorem foldl_dictInsert_lookup (k : Str) :
    ∀ l : List (Str × Str),
      lookupDict (l.foldl (fun d kv => dictInsert d kv.1 kv.2) []) k =
        ((l.filter (fun kv => kv.1 == k)).getLast?).map Prod.snd := by
  intro l
  induction l using List.reverseRecOn with
  | nil => rfl
  | append_singleton l kv ih =>
    obtain ⟨k1, v1⟩ := kv
    rw [List.foldl_append]
    simp only [List.foldl_cons, List.foldl_nil]
    by_cases hk : k1 = k
    · subst hk
      rw [lookupDict_dictInsert_self]
      rw [List.filter_append]
      simp
    · rw [lookupDict_dictInsert_ne _ _ _ _ hk, ih, List.filter_append]
      have : (k1 == k) = false := by simp [hk]
      simp [this]

/-- C10: when a second-level heading name occurs several times, the parsed
section dict binds the name to the content of the last occurrence whose
stripped content is non-empty (the occurrence list already excludes empty
ones); earlier occurrences are silently discarded. -/
theorem duplicate_heading_last_wins (text : Str) (k : Str) :
    lookupDict (parseSummary text).sections k =
      (((sectionOccurrences text).filter (fun kv => kv.1 == k)).getLast?).map
        Prod.snd := by
  have h := foldl_dictInsert_lookup k
    (findSections (splitNl (removeLinks (stripFrontmatter text))))
  simpa [parseSummary, sectionOccurrences] using h

/-! ### Serialization round trip (claim C8) -/

/-- Modelled from the spec: the serializer itself is not part of the source;
section 8 of the spec describes re-parsing "a document produced by
serializing a parsed `Summary` back to the same format", i.e. a top-level
heading with the title followed by one second-level heading per section with
its content. -/
def serializeSummary (s : Summary) : Str :=
  ("# ".toList ++ s.title) ++ '\n' ::
    (s.sections.map (fun kv =>
      ("## ".toList ++ kv.1) ++ '\n' :: (kv.2 ++ ['\n']))).flatten

/-- The line list of the serialized section blocks: a header line and the
content lines per section, and the final empty line after the last
newline. -/
def secLs (secs : List (Str × Str)) : List Str :=
  secs.flatMap (fun kv => ("## ".toList ++ kv.1) :: splitNl kv.2) ++ [[]]

/-- A parsed document whose section content retains markdown-link markup:
`parse_summary` rewrites `[a [b](c)](d)` to `a [b](d)`, which still matches
the link pattern on a second pass. -/
def roundTripDoc : Str := "# t\n## s\n[a [b](c)](d)".toList

/-- C8 counterexample: serializing the parse of `roundTripDoc` and re-parsing
does not recover the same section map — the reparse rewrites the content
`a [b](d)` once more, to `a b`. -/
theorem parse_serialize_not_id :
    ¬ ((parseSummary (serializeSummary (parseSummary roundTripDoc))).title =
          (parseSummary roundTripDoc).title ∧
        (parseSummary (serializeSummary (parseSummary roundTripDoc))).sections
          = (parseSummary roundTripDoc).sections) := by
  decide

/-- Prepending to the first line commutes with joining. -/
theorem joinNl_modifyHead (c : Char) :
    ∀ {L : List Str}, L ≠ [] →
      joinNl (L.modifyHead (c :: ·)) = c :: joinNl L := by
  intro L hL
  match L with
  | [l] => rfl
  | l :: l2 :: ls => rfl

/-- Joining the split lines recovers the string. -/
theorem joinNl_splitNl : ∀ cs : Str, joinNl (splitNl cs) = cs := by
  intro cs
  induction cs with
  | nil => rfl
  | cons c rest ih =>
    rw [splitNl]
    split
    · rename_i hc
      subst hc
      cases h : splitNl rest with
      | nil => exact absurd h (splitNl_ne_nil rest)
      | cons a as =>
        show '\n' :: joinNl (a :: as) = '\n' :: rest
        rw [← h, ih]
    · cases h : splitNl rest with
      | nil => exact absurd h (splitNl_ne_nil rest)
      | cons a as =>
        show joinNl ((c :: a) :: as) = c :: rest
        have hjoin : joinNl ((c :: a) :: as) = c :: joinNl (a :: as) := by
          cases as <;> rfl
        rw [hjoin, ← h, ih]

/-- A newline-free string is a single line. -/
theorem splitNl_eq_single {v : Str} (h : '\n' ∉ v) : splitNl v = [v] := by
  induction v with
  | nil => rfl
  | cons c rest ih =>
    rw [splitNl, if_neg (by intro hc; exact h (hc ▸ List.mem_cons_self c rest)),
      ih (fun hm => h (List.mem_cons_of_mem c hm))]
    rfl

/-- Joining with a trailing empty line appends a newline. -/
theorem joinNl_concat_nil :
    ∀ a : List Str, a ≠ [] → joinNl (a ++ [[]]) = joinNl a ++ ['\n'] := by
  intro a
  induction a with
  | nil => intro h; exact absurd rfl h
  | cons l ls ih =>
    intro _
    cases ls with
    | nil => simp [joinNl]
    | cons l2 ls2 =>
      have h1 : joinNl ((l :: l2 :: ls2) ++ [[]]) =
          l ++ '\n' :: joinNl ((l2 :: ls2) ++ [[]]) := rfl
      have h2 : joinNl (l :: l2 :: ls2) = l ++ '\n' :: joinNl (l2 :: ls2) := rfl
      rw [h1, h2, ih (by simp)]
      simp

/-- A strip-fixed string does not start with whitespace to drop. -/
theorem dropWhile_eq_self_of_strip {v : Str} (hs : pyStrip v = v) :
    v.dropWhile isPySpace = v := by
  have h1 : (v.dropWhile isPySpace).length ≤ v.length :=
    (List.dropWhile_sublist isPySpace :
      (v.dropWhile isPySpace).Sublist v).length_le
  have h2 : (pyStrip v).length ≤ (v.dropWhile isPySpace).length := by
    unfold pyStrip
    calc (((v.dropWhile isPySpace).reverse.dropWhile isPySpace).reverse).length
        = ((v.dropWhile isPySpace).reverse.dropWhile isPySpace).length :=
          List.length_reverse _
      _ ≤ (v.dropWhile isPySpace).reverse.length :=
          (List.dropWhile_sublist isPySpace :
            ((v.dropWhile isPySpace).reverse.dropWhile
              isPySpace).Sublist (v.dropWhile isPySpace).reverse).length_le
      _ = (v.dropWhile isPySpace).length := List.length_reverse _
  rw [hs] at h2
  exact (List.dropWhile_sublist isPySpace :
    (v.dropWhile isPySpace).Sublist v).eq_of_length (Nat.le_antisymm h1 h2)

/-- A strip-fixed string does not end with whitespace to drop. -/
theorem reverse_dropWhile_eq_self_of_strip {v : Str} (hs : pyStrip v = v) :
    v.reverse.dropWhile isPySpace = v.reverse := by
  have hfront := dropWhile_eq_self_of_strip hs
  have hrev : (v.reverse.dropWhile isPySpace).reverse = v := by
    have h := hs
    unfold pyStrip at h
    rw [hfront] at h
    exact h
  have := congrArg (fun l : Str => l.reverse) hrev
  simpa using this

/-- Appending a newline to a non-empty strip-fixed string strips back to it. -/
theorem pyStrip_concat_newline {v : Str} (hv : v ≠ [])
    (hs : pyStrip v = v) : pyStrip (v ++ ['\n']) = v := by
  have hfront := dropWhile_eq_self_of_strip hs
  have hback := reverse_dropWhile_eq_self_of_strip hs
  have hhead : ∃ c rest, v = c :: rest ∧ isPySpace c = false := by
    cases hv2 : v with
    | nil => exact absurd hv2 hv
    | cons c rest =>
      refine ⟨c, rest, rfl, ?_⟩
      rw [hv2, List.dropWhile_cons] at hfront
      by_cases hc : isPySpace c
      · rw [if_pos hc] at hfront
        have hlen := congrArg List.length hfront
        rw [List.length_cons] at hlen
        have hle : (rest.dropWhile isPySpace).length ≤ rest.length :=
          (List.dropWhile_sublist isPySpace :
            (rest.dropWhile isPySpace).Sublist rest).length_le
        omega
      · simpa using hc
  obtain ⟨c, rest, hvc, hc⟩ := hhead
  unfold pyStrip
  have hstep1 : (v ++ ['\n']).dropWhile isPySpace = v ++ ['\n'] := by
    rw [hvc, List.cons_append, List.dropWhile_cons, if_neg (by simp [hc])]
  rw [hstep1]
  have hstep2 : (v ++ ['\n']).reverse = '\n' :: v.reverse := by simp
  rw [hstep2, List.dropWhile_cons, if_pos (by simp [isPySpace]), hback]
  simp

/-- A serialized section header line satisfies the stop test. -/
theorem isSecStopLine_block (k : Str) :
    isSecStopLine ("## ".toList ++ k) = true := rfl

/-- A serialized section header line with a non-empty name is a header. -/
theorem isSecHeaderLine_block (k : Str) (hk : k ≠ []) :
    isSecHeaderLine ("## ".toList ++ k) = true := by
  unfold isSecHeaderLine
  rw [show (("## ".toList ++ k).take 3 == "## ".toList) = true from rfl,
    Bool.true_and, decide_eq_true_eq]
  have hlen : ("## ".toList ++ k).length = 3 + k.length := by
    rw [List.length_append]; rfl
  have hpos : 0 < k.length := List.length_pos.mpr hk
  omega

/-- The serialized title line never satisfies the section stop test. -/
theorem not_secStop_titleLine (t : Str) :
    isSecStopLine ("# ".toList ++ t) = false := rfl

/-- The serialized title line is never a section header. -/
theorem not_secHeader_titleLine (t : Str) :
    isSecHeaderLine ("# ".toList ++ t) = false := rfl

/-- The serialized title line with a non-empty title is a title match. -/
theorem isTitleLine_title (t : Str) (ht : t ≠ []) :
    isTitleLine ("# ".toList ++ t) = true := by
  unfold isTitleLine
  rw [show (("# ".toList ++ t).take 2 == ['#', ' ']) = true from rfl,
    Bool.true_and, decide_eq_true_eq]
  have hlen : ("# ".toList ++ t).length = 2 + t.length := by
    rw [List.length_append]; rfl
  have hpos : 0 < t.length := List.length_pos.mpr ht
  omega

/-- The section scan returns nothing on no lines, whatever the fuel. -/
theorem findSectionsAux_nil : ∀ fuel, findSectionsAux fuel [] = [] := by
  intro fuel
  cases fuel <;> rfl

/-- The serialized block line list is never empty. -/
theorem secLs_ne_nil (secs : List (Str × Str)) : secLs secs ≠ [] := by
  simp [secLs]

/-- Unfolding of `secLs` at a cons. -/
theorem secLs_cons (k v : Str) (rest : List (Str × Str)) :
    secLs ((k, v) :: rest) =
      ("## ".toList ++ k) :: (splitNl v ++ secLs rest) := by
  simp [secLs]

/-- The section scan over serialized block lines recovers the sections,
given enough fuel, names that are non-empty and strip-fixed, and contents
that are non-empty, strip-fixed and free of section-stop lines. -/
theorem findSectionsAux_secLs :
    ∀ secs : List (Str × Str),
      (∀ kv ∈ secs, kv.1 ≠ [] ∧ pyStrip kv.1 = kv.1) →
      (∀ kv ∈ secs, kv.2 ≠ [] ∧ pyStrip kv.2 = kv.2 ∧
        ∀ l ∈ splitNl kv.2, isSecStopLine l = false) →
      ∀ fuel, (secLs secs).length ≤ fuel →
        findSectionsAux fuel (secLs secs) = secs := by
  intro secs
  induction secs with
  | nil =>
    intro _ _ fuel hfuel
    have h0 : secLs ([] : List (Str × Str)) = [[]] := rfl
    rw [h0] at hfuel ⊢
    cases fuel with
    | zero => simp at hfuel
    | succ f =>
      rw [show findSectionsAux (f + 1) [[]] = findSectionsAux f [] from rfl]
      exact findSectionsAux_nil f
  | cons kv rest ih =>
    obtain ⟨k, v⟩ := kv
    intro hks hvs fuel hfuel
    obtain ⟨hk1, hk2⟩ := hks (k, v) (List.mem_cons_self _ _)
    obtain ⟨hv1, hv2, hv3⟩ := hvs (k, v) (List.mem_cons_self _ _)
    rw [secLs_cons] at hfuel ⊢
    cases fuel with
    | zero => simp at hfuel
    | succ f =>
      rw [findSectionsAux]
      have hne : (splitNl v ++ secLs rest).isEmpty = false := by
        cases hemp : splitNl v ++ secLs rest with
        | nil =>
          exact absurd (List.append_eq_nil.mp hemp).2 (secLs_ne_nil rest)
        | cons x xs => rfl
      rw [if_pos (by rw [isSecHeaderLine_block k hk1, hne]; rfl)]
      have hall : ∀ l ∈ splitNl v, (!isSecStopLine l) = true := by
        intro l hl
        rw [hv3 l hl]
        rfl
      rw [List.takeWhile_append_of_pos hall, List.dropWhile_append_of_pos hall]
      have hkey : pyStrip (("## ".toList ++ k).drop 3) = k := by
        rw [show ("## ".toList ++ k).drop 3 = k from rfl, hk2]
      have hflen : (secLs rest).length ≤ f := by
        rw [List.length_cons, List.length_append] at hfuel
        omega
      cases rest with
      | nil =>
        have h0 : secLs ([] : List (Str × Str)) = [[]] := rfl
        rw [h0]
        have htake : List.takeWhile (fun x => !isSecStopLine x)
            ([[]] : List Str) = [[]] := rfl
        have hdrop : List.dropWhile (fun x => !isSecStopLine x)
            ([[]] : List Str) = [] := rfl
        rw [htake, hdrop]
        have hjoin : joinNl (splitNl v ++ [[]]) = v ++ ['\n'] := by
          rw [joinNl_concat_nil _ (splitNl_ne_nil v), joinNl_splitNl]
        rw [hjoin, pyStrip_concat_newline hv1 hv2, if_neg hv1, hkey,
          findSectionsAux_nil f]
      | cons kv2 rest2 =>
        obtain ⟨k2, v2⟩ := kv2
        rw [secLs_cons]
        have hstop : (!isSecStopLine ("## ".toList ++ k2)) = false := by
          rw [isSecStopLine_block]
          rfl
        have htake : List.takeWhile (fun x => !isSecStopLine x)
            (("## ".toList ++ k2) :: (splitNl v2 ++ secLs rest2)) = [] := by
          rw [List.takeWhile_cons, hstop]
          rfl
        have hdrop : List.dropWhile (fun x => !isSecStopLine x)
            (("## ".toList ++ k2) :: (splitNl v2 ++ secLs rest2)) =
            ("## ".toList ++ k2) :: (splitNl v2 ++ secLs rest2) := by
          rw [List.dropWhile_cons, hstop]
          rfl
        rw [htake, hdrop]
        have hjoin : joinNl ([] : List Str) = [] := rfl
        rw [show joinNl (splitNl v ++ []) = v from by
          rw [List.append_nil, joinNl_splitNl]]
        rw [hv2, if_neg hv1, hkey, ← secLs_cons]
        rw [ih (fun kv hm => hks kv (List.mem_cons_of_mem _ hm))
          (fun kv hm => hvs kv (List.mem_cons_of_mem _ hm)) f
          (by rw [secLs_cons]; rw [secLs_cons] at hflen; exact hflen)]

/-- Texts that do not open with the frontmatter delimiter are unchanged. -/
theorem stripFrontmatter_eq_self {cs : Str} (h : cs.take 3 ≠ "---".toList) :
    stripFrontmatter cs = cs := by
  unfold stripFrontmatter
  rw [if_neg h]

/-- Splitting the serialized section blocks yields the block line list. -/
theorem splitNl_blocks :
    ∀ secs : List (Str × Str), (∀ kv ∈ secs, '\n' ∉ kv.1) →
      splitNl ((secs.map (fun kv =>
        ("## ".toList ++ kv.1) ++ '\n' :: (kv.2 ++ ['\n']))).flatten) =
        secLs secs := by
  intro secs
  induction secs with
  | nil => intro _; rfl
  | cons kv rest ih =>
    intro hkn
    obtain ⟨k, v⟩ := kv
    simp only [List.map_cons, List.flatten_cons]
    have hassoc : (("## ".toList ++ k) ++ '\n' :: (v ++ ['\n'])) ++
        (rest.map (fun kv =>
          ("## ".toList ++ kv.1) ++ '\n' :: (kv.2 ++ ['\n']))).flatten =
        ("## ".toList ++ k) ++ '\n' :: (v ++ '\n' ::
          (rest.map (fun kv =>
            ("## ".toList ++ kv.1) ++ '\n' :: (kv.2 ++ ['\n']))).flatten) := by
      simp
    rw [hassoc, splitNl_append, splitNl_append]
    have hknl : '\n' ∉ "## ".toList ++ k := by
      intro hm
      rcases List.mem_append.mp hm with hm | hm
      · simp at hm
      · exact hkn (k, v) (List.mem_cons_self _ _) hm
    rw [splitNl_eq_single hknl,
      ih (fun kv hm => hkn kv (List.mem_cons_of_mem _ hm)), secLs_cons]
    rfl

/-- Splitting a serialized summary yields the title line and block lines. -/
theorem splitNl_serialize (s : Summary) (htn : '\n' ∉ s.title)
    (hkn : ∀ kv ∈ s.sections, '\n' ∉ kv.1) :
    splitNl (serializeSummary s) =
      ("# ".toList ++ s.title) :: secLs s.sections := by
  obtain ⟨t, secs⟩ := s
  unfold serializeSummary
  simp only
  rw [splitNl_append]
  have htnl : '\n' ∉ "# ".toList ++ t := by
    intro hm
    rcases List.mem_append.mp hm with hm | hm
    · simp at hm
    · exact htn hm
  rw [splitNl_eq_single htnl, splitNl_blocks secs hkn]
  rfl

/-- Folding fresh distinct keys into a dict just appends them. -/
theorem foldl_dictInsert_id :
    ∀ l acc : List (Str × Str),
      (∀ kv ∈ l, hasKey acc kv.1 = false) →
      (l.map Prod.fst).Nodup →
      l.foldl (fun d kv => dictInsert d kv.1 kv.2) acc = acc ++ l := by
  intro l
  induction l with
  | nil => intro acc _ _; simp
  | cons kv rest ih =>
    intro acc hdisj hnodup
    rw [List.foldl_cons]
    have hin : dictInsert acc kv.1 kv.2 = acc ++ [kv] := by
      unfold dictInsert
      rw [if_neg (by
        have := hdisj kv (List.mem_cons_self _ _)
        unfold hasKey at this
        rw [this]
        simp)]
    rw [hin]
    rw [List.map_cons, List.nodup_cons] at hnodup
    rw [ih (acc ++ [kv]) ?_ hnodup.2]
    · simp
    · intro kv' hkv'
      have h1 : hasKey acc kv'.1 = false :=
        hdisj kv' (List.mem_cons_of_mem _ hkv')
      have h2 : (kv.1 == kv'.1) = false := by
        have hne : kv.1 ≠ kv'.1 := by
          intro heq
          exact hnodup.1 (heq ▸ List.mem_map_of_mem Prod.fst hkv')
        simp [hne]
      unfold hasKey at h1 ⊢
      rw [List.any_append, h1]
      simp [h2]

/-- C8 amended: re-parsing a serialized parsed summary recovers the title and
the exact section map whenever the summary is benign: non-empty newline-free
strip-fixed title, non-empty newline-free strip-fixed pairwise-distinct
section names, non-empty strip-fixed contents none of whose lines start a
section stop, and a serialization that the link rewrite leaves unchanged.
The unconditional claim fails (see the counterexample): residual link markup
in a parsed content is rewritten again on the second parse. -/
theorem parse_serialize_roundtrip (s : Summary)
    (htn : '\n' ∉ s.title) (hte : s.title ≠ [])
    (hts : pyStrip s.title = s.title)
    (hkeys : ∀ kv ∈ s.sections,
      kv.1 ≠ [] ∧ '\n' ∉ kv.1 ∧ pyStrip kv.1 = kv.1)
    (hvals : ∀ kv ∈ s.sections, kv.2 ≠ [] ∧ pyStrip kv.2 = kv.2 ∧
      ∀ l ∈ splitNl kv.2, isSecStopLine l = false)
    (hnodup : (s.sections.map Prod.fst).Nodup)
    (hlinks : removeLinks (serializeSummary s) = serializeSummary s) :
    parseSummary (serializeSummary s) = s := by
  have hsf : stripFrontmatter (serializeSummary s) = serializeSummary s := by
    refine stripFrontmatter_eq_self ?_
    obtain ⟨t, secs⟩ := s
    intro h
    have h2 : ('#' :: (' ' :: (t ++ '\n' ::
        ((secs.map (fun kv =>
          ("## ".toList ++ kv.1) ++ '\n' :: (kv.2 ++ ['\n']))).flatten)))).take 3
        = "---".toList := h
    rw [show ('#' :: (' ' :: (t ++ '\n' ::
        ((secs.map (fun kv =>
          ("## ".toList ++ kv.1) ++ '\n' :: (kv.2 ++ ['\n']))).flatten)))).take 3
        = '#' :: (' ' :: (t ++ '\n' ::
          ((secs.map (fun kv =>
            ("## ".toList ++ kv.1) ++ '\n' ::
              (kv.2 ++ ['\n']))).flatten))).take 2 from rfl] at h2
    injection h2 with h3 _
    exact absurd h3 (by decide)
  have hlines := splitNl_serialize s htn (fun kv hm => (hkeys kv hm).2.1)
  have htitle : findTitle (serializeSummary s) = some s.title := by
    unfold findTitle
    rw [hlines, List.find?_cons_of_pos _ (isTitleLine_title s.title hte)]
    show some (pyStrip (("# ".toList ++ s.title).drop 2)) = some s.title
    rw [show ("# ".toList ++ s.title).drop 2 = s.title from rfl, hts]
  have hsecs : findSections (splitNl (serializeSummary s)) = s.sections := by
    unfold findSections
    rw [hlines]
    rw [List.length_cons]
    rw [show findSectionsAux ((secLs s.sections).length + 1)
        (("# ".toList ++ s.title) :: secLs s.sections) =
        findSectionsAux (secLs s.sections).length (secLs s.sections) from by
      rw [findSectionsAux]
      rw [if_neg (by rw [not_secHeader_titleLine s.title]; simp)]]
    exact findSectionsAux_secLs s.sections
      (fun kv hm => ⟨(hkeys kv hm).1, (hkeys kv hm).2.2⟩) hvals
      (secLs s.sections).length (le_refl _)
  simp only [parseSummary]
  rw [hsf, hlinks, hsecs, htitle]
  rw [foldl_dictInsert_id s.sections [] (fun kv _ => rfl) hnodup]
  simp

/-- Witness for C8 at a concrete benign summary. -/
theorem parse_serialize_roundtrip_witness :
    parseSummary (serializeSummary
      ⟨"標題".toList,
        [("核心觀點".toList, "重點一\n重點二".toList),
          ("風險提示".toList, "風險A".toList)]⟩) =
      ⟨"標題".toList,
        [("核心觀點".toList, "重點一\n重點二".toList),
          ("風險提示".toList, "風險A".toList)]⟩ :=
  parse_serialize_roundtrip
    ⟨"標題".toList,
      [("核心觀點".toList, "重點一\n重點二".toList),
        ("風險提示".toList, "風險A".toList)]⟩
    (by decide) (by decide) (by decide) (by decide) (by decide) (by decide)
    (by decide)

end CardGen
